import Mathlib

/-!
Verification of the natural-language-to-SQL pipeline of the
Advanced-Data-Analytics-Dashboard repository (src/agent.py, src/data_manager.py).

Strings are modelled as `List Char`; Python `str.upper` / `str.lower` are
modelled by `Char.toUpper` / `Char.toLower` (ASCII, which covers every string
the code manipulates), and the regular expressions used by the source are
modelled by explicit left-to-right scanners with the exact lookaround
semantics of the patterns appearing in the code.
-/

/-- The double-quote character. -/
def qChar : Char := Char.ofNat 34

/-- The backtick character. -/
def btChar : Char := Char.ofNat 96

/-- Python `s.upper()` on a character list (ASCII). -/
def upList (s : List Char) : List Char := s.map Char.toUpper

/-- Python `s.lower()` on a character list (ASCII). -/
def lowList (s : List Char) : List Char := s.map Char.toLower

/-- Python `pat in s` (substring containment), as a Bool. -/
def containsTok (s : List Char) (pat : List Char) : Bool := decide (pat <:+: s)

/-- The deny list of `is_safe_sql` (src/agent.py), in source order. -/
def bannedList : List String :=
  ["DROP", "DELETE", "INSERT", "UPDATE", "CREATE", "ALTER",
   "TRUNCATE", "EXEC", "EXECUTE", ";--", "/*", "*/"]

/-- `is_safe_sql` (src/agent.py): upper-case the query and reject when any
deny-listed token occurs as a substring. -/
def is_safe_sql (query : String) : Bool :=
  !(bannedList.any (fun b => containsTok (upList query.data) b.data))

/-- C2: `is_safe_sql q` is false exactly when the upper-cased `q` contains a
deny-listed token as a substring; in particular it is false for a query
containing a deny-listed keyword in any letter case, and true for a query
whose upper-casing contains none of the tokens. -/
theorem is_safe_sql_characterization (q : String) :
    (is_safe_sql q = false ↔ ∃ b ∈ bannedList, b.data <:+: upList q.data) ∧
    (∀ v b : String, b ∈ bannedList → upList v.data = b.data →
      v.data <:+: q.data → is_safe_sql q = false) ∧
    ((∀ b ∈ bannedList, ¬ b.data <:+: upList q.data) → is_safe_sql q = true) := by
  have hmain : is_safe_sql q = false ↔ ∃ b ∈ bannedList, b.data <:+: upList q.data := by
    simp [is_safe_sql, containsTok, List.any_eq_true]
  refine ⟨hmain, ?_, ?_⟩
  · intro v b hb hup hinf
    refine hmain.mpr ⟨b, hb, ?_⟩
    have : (v.data.map Char.toUpper) <:+: (q.data.map Char.toUpper) :=
      List.IsInfix.map Char.toUpper hinf
    rw [upList] at hup
    rw [upList]
    exact hup ▸ this
  · intro hnone
    rcases h : is_safe_sql q with _ | _
    · exact absurd (hmain.mp h) (by push_neg; exact fun b hb => hnone b hb)
    · rfl

/-- C2 witness: concrete instances of both directions. -/
theorem is_safe_sql_characterization_witness :
    is_safe_sql ("select Drop table") = false ∧ is_safe_sql ("SELECT 1") = true :=
  ⟨(is_safe_sql_characterization ("select Drop table")).2.1 ("Drop") ("DROP")
      (by decide) (by decide) (by decide),
   (is_safe_sql_characterization ("SELECT 1")).2.2 (by decide)⟩

theorem char_toNat_ofNat_valid (n : Nat) (h : n.isValidChar) :
    (Char.ofNat n).toNat = n := by
  rw [Char.ofNat, dif_pos h]
  rfl

theorem char_toNat_inj {a b : Char} (h : a.toNat = b.toNat) : a = b := by
  have h2 := congrArg Char.ofNat h
  rwa [Char.ofNat_toNat, Char.ofNat_toNat] at h2

theorem toLower_toNat (c : Char) :
    (Char.toLower c).toNat =
      if 65 ≤ c.toNat ∧ c.toNat ≤ 90 then c.toNat + 32 else c.toNat := by
  by_cases h : 65 ≤ c.toNat ∧ c.toNat ≤ 90
  · rw [if_pos h, Char.toLower, if_pos (show c.toNat ≥ 65 ∧ c.toNat ≤ 90 from h)]
    exact char_toNat_ofNat_valid _ (Or.inl (by omega))
  · rw [if_neg h, Char.toLower, if_neg (show ¬(c.toNat ≥ 65 ∧ c.toNat ≤ 90) from h)]

/-- Python regex `\w` (ASCII): letters, digits, underscore.  Stated on
character codes, which agrees with `Char.isAlphanum || c == '_'` on all
of Unicode. -/
def wordChar (c : Char) : Bool :=
  decide ((65 ≤ c.toNat ∧ c.toNat ≤ 90) ∨ (97 ≤ c.toNat ∧ c.toNat ≤ 122) ∨
    (48 ≤ c.toNat ∧ c.toNat ≤ 57) ∨ c.toNat = 95)

theorem wordChar_toLower (c : Char) : wordChar (Char.toLower c) = wordChar c := by
  unfold wordChar
  rw [decide_eq_decide, toLower_toNat]
  split <;> omega

theorem toLower_eq_qChar {c : Char} : Char.toLower c = qChar ↔ c = qChar := by
  constructor
  · intro h
    have h2 := congrArg Char.toNat h
    rw [toLower_toNat] at h2
    have hq : qChar.toNat = 34 := by decide
    rw [hq] at h2
    split at h2
    · omega
    · exact char_toNat_inj (by rw [h2, hq])
  · intro h
    subst h
    decide

theorem toLower_eq_btChar {c : Char} : Char.toLower c = btChar ↔ c = btChar := by
  constructor
  · intro h
    have h2 := congrArg Char.toNat h
    rw [toLower_toNat] at h2
    have hq : btChar.toNat = 96 := by decide
    rw [hq] at h2
    split at h2
    · omega
    · exact char_toNat_inj (by rw [h2, hq])
  · intro h
    subst h
    decide

/-- Case-insensitive character comparison, as produced by `re.IGNORECASE`. -/
def lowEqB (a b : Char) : Bool := Char.toLower a == Char.toLower b

/-- Case-insensitive literal-pattern match against a prefix of the text. -/
def mCI : List Char → List Char → Bool
  | [], _ => true
  | _ :: _, [] => false
  | p :: ps, c :: cs => lowEqB p c && mCI ps cs

/-- The lookbehind `(?<!")(?<!\w)` of `_quote_column_names_smart`. -/
def okBefore : Option Char → Bool
  | none => true
  | some c => !(c == qChar) && !(wordChar c)

/-- The lookahead `(?!\w)(?!")` of `_quote_column_names_smart`, applied to the
character just after a candidate match (`none` = end of string). -/
def okAfterO : Option Char → Bool
  | none => true
  | some c => !(wordChar c) && !(c == qChar)

/-- Does the pattern `(?<!")(?<!\w)col(?!\w)(?!")` match at the head of `s`,
with `prev` the character preceding `s` in the scanned string? -/
def eligAtB (col : List Char) (prev : Option Char) (s : List Char) : Bool :=
  okBefore prev && mCI col s && okAfterO (s.get? col.length)

/-- Left-to-right non-overlapping `re.sub` scan for one column name, replacing
each match by the double-quoted canonical column text.  The fuel argument is
an upper bound on the scanned length, making the function structurally
recursive (`subCol` instantiates it with the exact length). -/
def subColGo (col : List Char) : Nat → Option Char → List Char → List Char
  | 0, _, s => s
  | _ + 1, _, [] => []
  | n + 1, prev, c :: cs =>
    if eligAtB col prev (c :: cs) then
      qChar :: (col ++ qChar ::
        subColGo col n ((List.take col.length (c :: cs)).getLast?)
          (List.drop col.length (c :: cs)))
    else
      c :: subColGo col n (some c) cs

/-- `re.sub` for one column over a whole string.  An empty column name is
returned unchanged (the empty-pattern corner of `re.sub` is outside the
behaviour exercised by the source, whose column names come from dataframe
headers). -/
def subCol (col s : List Char) : List Char :=
  if col.isEmpty then s else subColGo col s.length none s

/-- Step 1 of `_quote_column_names_smart`: `query.replace` of backticks by
double quotes. -/
def dequoteTicksL (s : List Char) : List Char :=
  s.map (fun c => if c == btChar then qChar else c)

/-- The already-quoted form `f-string "{col}"` checked by the skip test. -/
def copyTok (col : List Char) : List Char := qChar :: (col ++ [qChar])

/-- One iteration of the quoting loop: skip a column already appearing in
double-quoted form, otherwise run the substitution. -/
def quoteStep (s col : List Char) : List Char :=
  if containsTok s (copyTok col) then s else subCol col s

/-- Stable insertion used to model Python `sorted(columns, key=len,
reverse=True)`. -/
def insertDesc (x : List Char) : List (List Char) → List (List Char)
  | [] => [x]
  | y :: ys => if x.length < y.length then y :: insertDesc x ys else x :: y :: ys

/-- Python `sorted(columns, key=len, reverse=True)` (stable, descending). -/
def sortDescLen (cols : List (List Char)) : List (List Char) :=
  cols.foldr insertDesc []

/-- `_quote_column_names_smart` (src/data_manager.py). -/
def quote_column_names_smart (query : List Char) (columns : List (List Char)) :
    List Char :=
  (sortDescLen columns).foldl quoteStep (dequoteTicksL query)

/-- String-level wrapper for `_quote_column_names_smart`. -/
def quoteSmartS (query : String) (columns : List String) : String :=
  ⟨quote_column_names_smart query.data (columns.map String.data)⟩

/-- C6: quoting `SELECT Age, "Age Group" FROM t` for columns
`["Age", "Age Group"]` quotes the bare `Age` and leaves the already-delimited
`"Age Group"` untouched. -/
theorem quote_smart_age_group :
    quoteSmartS ("SELECT Age, \"Age Group\" FROM t") ["Age", "Age Group"] =
      ("SELECT \"Age\", \"Age Group\" FROM t") := by decide

/-- C7 counterexample: with the column list `["\"x\"", "x"]` (a column name
that itself contains double quotes) the quoter is not idempotent on the query
`SELECT x FROM t`: one application yields `SELECT "x" FROM t`, a second one
yields `SELECT ""x"" FROM t`. -/
theorem quote_smart_not_idempotent :
    quoteSmartS (quoteSmartS ("SELECT x FROM t") ["\"x\"", "x"]) ["\"x\"", "x"] ≠
      quoteSmartS ("SELECT x FROM t") ["\"x\"", "x"] := by decide

/-- Python whitespace for `str.strip` (ASCII). -/
def isSpaceA (c : Char) : Bool :=
  decide (c.toNat = 32 ∨ c.toNat = 9 ∨ c.toNat = 10 ∨ c.toNat = 13 ∨
    c.toNat = 11 ∨ c.toNat = 12)

/-- Python `str.strip()`. -/
def stripL (s : List Char) : List Char :=
  ((s.dropWhile isSpaceA).reverse.dropWhile isSpaceA).reverse

/-- `re.search` of the pattern `"([^"]+)"|`-quoted`|(\w+)` used by
`_enhance_error` and `extract_columns_from_query`: the first (leftmost)
double-quoted run, backtick-quoted run, or word-character run of the string,
returning the matched group text. -/
def firstTok : List Char → Option (List Char)
  | [] => none
  | c :: cs =>
    if c == qChar then
      let pre := cs.takeWhile (fun x => !(x == qChar))
      if pre.length ≠ 0 ∧ cs.get? pre.length = some qChar then some pre
      else firstTok cs
    else if c == btChar then
      let pre := cs.takeWhile (fun x => !(x == btChar))
      if pre.length ≠ 0 ∧ cs.get? pre.length = some btChar then some pre
      else firstTok cs
    else if wordChar c then some (c :: cs.takeWhile wordChar)
    else firstTok cs

/-- Python `", ".join`. -/
def joinComma (l : List (List Char)) : List Char := List.intercalate (", ".data) l

/-- `_enhance_error` (src/data_manager.py). -/
def enhance_error (error : List Char) (columns : List (List Char)) : List Char :=
  let errLow := lowList error
  let colBranch : Option (List Char) :=
    if containsTok errLow ("column".data) && containsTok errLow ("not found".data) then
      match firstTok error with
      | some tok =>
        let bad := stripL tok
        let similar := columns.filter (fun c => containsTok (lowList c) (lowList bad))
        if similar.length ≠ 0 then
          some ("Column '".data ++ bad ++ "' not found. Did you mean: ".data ++
            joinComma (similar.take 3) ++ "?".data)
        else
          some ("Column '".data ++ bad ++ "' not found. Available columns: ".data ++
            joinComma (columns.take 5))
      | none => none
    else none
  match colBranch with
  | some r => r
  | none =>
    if containsTok errLow ("syntax error".data) then
      ("SQL syntax error. Check your query syntax and column names.").data
    else if containsTok errLow ("binder".data) || containsTok errLow ("catalog".data) then
      ("Column reference error. Available columns: ").data ++ joinComma (columns.take 5)
    else ("Query failed: ").data ++ error

/-- String-level wrapper for `_enhance_error`. -/
def enhanceErrorS (error : String) (columns : List String) : String :=
  ⟨enhance_error error.data (columns.map String.data)⟩

/-- C5 (code bug): on a column-not-found error text mentioning the unknown
column `"Prof"` against schema `["Profit"]`, `_enhance_error` extracts the
first word of the error text (here `Binder`, or `column` for a bare
`column "Prof" not found` text) rather than the quoted offending identifier,
so the enhanced message lists available columns instead of containing
`Did you mean: Profit`. -/
theorem enhance_error_extracts_first_word :
    enhanceErrorS ("Binder Error: Referenced column \"Prof\" not found in FROM clause!")
        ["Profit"] = ("Column 'Binder' not found. Available columns: Profit") ∧
    ¬ (("Did you mean: Profit").data <:+:
        (enhanceErrorS ("Binder Error: Referenced column \"Prof\" not found in FROM clause!")
          ["Profit"]).data) ∧
    enhanceErrorS ("column \"Prof\" not found") ["Profit"] =
      ("Column 'column' not found. Available columns: Profit") := by decide

/-- Three backticks, the markdown fence. -/
def fence3 : List Char := [btChar, btChar, btChar]

/-- `re.sub` of an anchored pattern `^tag\s*` by the empty string
(case-insensitive): used for the leading fence markers. -/
def dropStartFence (tag : List Char) (s : List Char) : List Char :=
  if mCI tag s then (s.drop tag.length).dropWhile isSpaceA else s

/-- `re.sub` of the pattern `\s*` then three backticks then end-of-string by
the empty string: used for the trailing fence marker. -/
def dropEndFence (s : List Char) : List Char :=
  if decide (fence3 <:+ s) then
    ((s.take (s.length - 3)).reverse.dropWhile isSpaceA).reverse
  else s

/-- The output clean-up shared by `generate_sql_with_llm` and
`retry_sql_generation` (src/agent.py): strip, remove a leading fence tagged
`sql`, remove a leading plain fence, remove a trailing fence, strip. -/
def cleanSQLFences (raw : List Char) : List Char :=
  stripL (dropEndFence (dropStartFence fence3
    (dropStartFence (fence3 ++ ("sql").data) (stripL raw))))

/-- Python `sql.upper().startswith("SELECT")`. -/
def startsWithSelect (s : List Char) : Bool := decide (("SELECT").data <+: upList s)

/-- The hardcoded fallback query of src/agent.py. -/
def fallbackQuery : String := "SELECT * FROM current_data LIMIT 20"

/-- `generate_sql_with_llm` (src/agent.py), as a function of the raw model
response: `.error` is a model call that raised; a cleaned output that does
not begin with SELECT triggers the internal `ValueError`, which the same
`try` block converts into the fallback query. -/
def generate_sql_with_llm (raw : Except String String) : String :=
  match raw with
  | .error _ => fallbackQuery
  | .ok r =>
    let sql := cleanSQLFences r.data
    if startsWithSelect sql then ⟨sql⟩ else fallbackQuery

/-- `retry_sql_generation` (src/agent.py), as a function of the raw model
response to the repair prompt: the cleaned output is returned without any
SELECT validation; only a raising model call falls back. -/
def retry_sql_generation (raw : Except String String) : String :=
  match raw with
  | .error _ => fallbackQuery
  | .ok r => ⟨cleanSQLFences r.data⟩

/-- C9: `generate_sql_with_llm` returns the fence-stripped cleaned model
output exactly when that cleaned output begins with the SELECT keyword, and
the fallback query when it does not or when the model call fails; markdown
fences are stripped as in the concrete scenario. -/
theorem generate_sql_with_llm_spec :
    (∀ e : String, generate_sql_with_llm (Except.error e) = fallbackQuery) ∧
    (∀ r : String, startsWithSelect (cleanSQLFences r.data) = true →
      generate_sql_with_llm (Except.ok r) = ⟨cleanSQLFences r.data⟩) ∧
    (∀ r : String, startsWithSelect (cleanSQLFences r.data) = false →
      generate_sql_with_llm (Except.ok r) = fallbackQuery) ∧
    generate_sql_with_llm
        (Except.ok ("```sql\nSELECT * FROM current_data LIMIT 5\n```")) =
      ("SELECT * FROM current_data LIMIT 5") := by
  refine ⟨fun e => rfl, fun r h => ?_, fun r h => ?_, by decide⟩
  · simp [generate_sql_with_llm, h]
  · simp [generate_sql_with_llm, h]

/-- C9 witness: both branches at concrete model outputs. -/
theorem generate_sql_with_llm_spec_witness :
    generate_sql_with_llm (Except.ok ("SELECT 1")) = ("SELECT 1") ∧
    generate_sql_with_llm (Except.ok ("hello")) = fallbackQuery :=
  ⟨(generate_sql_with_llm_spec.2.1 ("SELECT 1") (by decide)).trans (by decide),
   generate_sql_with_llm_spec.2.2.1 ("hello") (by decide)⟩

/-- Python `query.split("FROM")[0]`: the text before the first (case-sensitive)
occurrence of the separator, or the whole string when absent. -/
def beforeTok (pat : List Char) : List Char → List Char
  | [] => []
  | c :: cs => if pat <+: (c :: cs) then [] else c :: beforeTok pat cs

/-- `re.sub` of the unanchored pattern `SELECT\s+` (case-insensitive) by the
empty string: every occurrence of the keyword followed by at least one
whitespace character is removed together with the greedy whitespace run. -/
def subSelectWS : Nat → List Char → List Char
  | 0, s => s
  | _ + 1, [] => []
  | n + 1, c :: cs =>
    if mCI (("SELECT").data) (c :: cs) &&
        (match ((c :: cs).drop 6).head? with
         | some w => isSpaceA w
         | none => false) then
      subSelectWS n (((c :: cs).drop 6).dropWhile isSpaceA)
    else c :: subSelectWS n cs

/-- `re.split` of `\s+AS\s+` (case-insensitive), first piece: the text before
the first whitespace-run followed by `AS` followed by whitespace. -/
def beforeAsSplit : List Char → List Char
  | [] => []
  | c :: cs =>
    if isSpaceA c &&
        (let rest := (c :: cs).drop ((c :: cs).takeWhile isSpaceA).length
         mCI (("AS").data) rest &&
           (match (rest.drop 2).head? with
            | some w => isSpaceA w
            | none => false)) then []
    else c :: beforeAsSplit cs

/-- The fixed keyword filter of `extract_columns_from_query`. -/
def sqlKeywordsU : List (List Char) :=
  [("SELECT").data, ("DISTINCT").data, ("COUNT").data, ("AVG").data,
   ("SUM").data, ("MAX").data, ("MIN").data]

/-- One comma-separated piece of the SELECT clause: strip an AS alias, take
the first quoted/backticked/word token, drop SQL keywords. -/
def extractPart (part : List Char) : Option (List Char) :=
  match firstTok (beforeAsSplit part) with
  | some col => if upList col ∈ sqlKeywordsU then none else some col
  | none => none

/-- `extract_columns_from_query` (src/agent.py). -/
def extract_columns_from_query (query : List Char) : List (List Char) :=
  if containsTok (upList query) (("SELECT").data) then
    let sp0 := beforeTok (("FROM").data) query
    let sp := stripL (subSelectWS sp0.length sp0)
    if containsTok sp (("*").data) then [("*").data]
    else (sp.splitOn ',').filterMap extractPart
  else []

/-- A result row, a mapping from column names to (stringified) values; the
reserved key `error` tags an error descriptor. -/
abbrev Row := List (String × String)

/-- The dataset info returned by `get_dataset_info` when a dataset resolves. -/
structure DSInfo where
  name : String
  columns : List String
deriving DecidableEq

/-- A metadata value of the response dict. -/
inductive MetaVal where
  | str : String → MetaVal
  | num : Nat → MetaVal
  | strList : List String → MetaVal
deriving DecidableEq

/-- The response dict of `run_agent`: a content string and a metadata dict. -/
structure RunResp where
  content : String
  metadata : List (String × MetaVal)
deriving DecidableEq

/-- The collaborators of one `run_agent` invocation: the resolved dataset
info (`none` models the `"error" in info` early return), the raw model
response for generation, the raw model response for repair as a function of
the error text, the executor behaviour per query (`Except.error` modelling a
raising executor for the error-handling claim; `query_data` itself returns
error rows), and the final summarization model response. -/
structure AgentEnv where
  info : Option DSInfo
  gen1 : Except String String
  gen2 : String → Except String String
  execQ : String → Except String (List Row)
  ans : Except String String

/-- The Python check `results and isinstance(results[0], dict) and
"error" in results[0]`. -/
def hasErrRow (results : List Row) : Bool :=
  match results with
  | [] => false
  | r :: _ => (r.lookup ("error")).isSome

/-- `results[0]["error"]` (defaulted for totality; only read under
`hasErrRow`). -/
def errOf (results : List Row) : String :=
  match results with
  | [] => ""
  | r :: _ => (r.lookup ("error")).getD ("")

/-- Steps 1 and 2 of `run_agent`: generate SQL, then substitute the fallback
query when the Safety Gate rejects the draft. -/
def gatedQuery (env : AgentEnv) : String :=
  let q0 := generate_sql_with_llm env.gen1
  if is_safe_sql q0 then q0 else fallbackQuery

/-- The repaired query of `run_agent`: `retry_sql_generation` on the first
attempt's error text.  It is not passed through the Safety Gate. -/
def retryQuery (env : AgentEnv) (r1 : List Row) : String :=
  retry_sql_generation (env.gen2 (errOf r1))

/-- The `except Exception` handler of `run_agent`. -/
def catchResp (e : String) : RunResp :=
  { content := ("Error: ") ++ e, metadata := [(("error"), MetaVal.str e)] }

/-- The still-failing response of `run_agent` after the repair attempt. -/
def stillFailResp (info : DSInfo) (q2 : String) (r2 : List Row) : RunResp :=
  { content := ("I couldn't analyze that data. Error: ") ++ errOf r2 ++
      ("\n\nTry rephrasing your question or ask about specific columns."),
    metadata := [(("query_used"), MetaVal.str q2),
                 (("error"), MetaVal.str (errOf r2)),
                 (("dataset"), MetaVal.str info.name)] }

/-- The success response of `run_agent`. -/
def okResp (info : DSInfo) (q : String) (results : List Row) (answer : String) :
    RunResp :=
  { content := answer,
    metadata := [(("query_used"), MetaVal.str q),
                 (("results_count"), MetaVal.num results.length),
                 (("dataset"), MetaVal.str info.name),
                 (("columns_analyzed"), MetaVal.strList
                    ((extract_columns_from_query q.data).map
                      (fun l => (⟨l⟩ : String))))] }

/-- `run_agent` (src/agent.py), paired with the ordered list of queries
handed to the Query Executor (`query_data`) during the call. -/
def run_agent (env : AgentEnv) : RunResp × List String :=
  match env.info with
  | none =>
    ({ content := ("Please upload a dataset first."),
       metadata := [(("error"), MetaVal.str ("No dataset"))] }, [])
  | some info =>
    match env.execQ (gatedQuery env) with
    | Except.error e => (catchResp e, [gatedQuery env])
    | Except.ok r1 =>
      if hasErrRow r1 then
        match env.execQ (retryQuery env r1) with
        | Except.error e => (catchResp e, [gatedQuery env, retryQuery env r1])
        | Except.ok r2 =>
          if hasErrRow r2 then
            (stillFailResp info (retryQuery env r1) r2,
             [gatedQuery env, retryQuery env r1])
          else
            match env.ans with
            | Except.error e =>
              (catchResp e, [gatedQuery env, retryQuery env r1])
            | Except.ok a =>
              (okResp info (retryQuery env r1) r2 a,
               [gatedQuery env, retryQuery env r1])
      else
        match env.ans with
        | Except.error e => (catchResp e, [gatedQuery env])
        | Except.ok a => (okResp info (gatedQuery env) r1 a, [gatedQuery env])

/-- The Safety Gate always passes the first candidate query: a rejected draft
is replaced by the fallback query, which is itself safe. -/

theorem gatedQuery_safe (env : AgentEnv) : is_safe_sql (gatedQuery env) = true := by
  unfold gatedQuery
  cases hs : is_safe_sql (generate_sql_with_llm env.gen1) with
  | false =>
    simp only [hs, Bool.false_eq_true, if_false]
    decide
  | true => simp [hs]

theorem run_agent_trace_shape (env : AgentEnv) :
    (run_agent env).2 = [] ∨
      ∃ rest, (run_agent env).2 = gatedQuery env :: rest := by
  unfold run_agent
  cases hinfo : env.info with
  | none => exact Or.inl rfl
  | some info =>
    cases hx : env.execQ (gatedQuery env) with
    | error e => exact Or.inr ⟨[], rfl⟩
    | ok r1 =>
      cases h1 : hasErrRow r1 with
      | false =>
        cases ha : env.ans with
        | error e => exact Or.inr ⟨[], by simp [h1, ha]⟩
        | ok a => exact Or.inr ⟨[], by simp [h1, ha]⟩
      | true =>
        cases hx2 : env.execQ (retryQuery env r1) with
        | error e => exact Or.inr ⟨[retryQuery env r1], by simp [h1, hx2]⟩
        | ok r2 =>
          cases h2 : hasErrRow r2 with
          | false =>
            cases ha : env.ans with
            | error e => exact Or.inr ⟨[retryQuery env r1], by simp [h1, hx2, h2, ha]⟩
            | ok a => exact Or.inr ⟨[retryQuery env r1], by simp [h1, hx2, h2, ha]⟩
          | true => exact Or.inr ⟨[retryQuery env r1], by simp [h1, hx2, h2]⟩

def rowsErrBoom : List Row := [[(("error"), ("boom"))]]

def envCE : AgentEnv :=
  { info := some { name := ("d"), columns := [("a")] },
    gen1 := Except.ok ("SELECT a FROM current_data"),
    gen2 := fun _ => Except.ok ("DROP TABLE current_data"),
    execQ := fun _ => Except.ok rowsErrBoom,
    ans := Except.ok ("x") }

/-- C1 counterexample: a behaviour of the collaborators under which the
repaired query `DROP TABLE current_data` — which the Safety Gate rejects —
is handed to the Query Executor as the second executed query, refuting the
claim that every executed query passes the gate. -/
theorem run_agent_executes_unsafe_repair :
    (run_agent envCE).2 =
      [("SELECT a FROM current_data"), ("DROP TABLE current_data")] ∧
    is_safe_sql ("DROP TABLE current_data") = false := by decide

/-- C1 (amended): only the first candidate query is passed through the
Safety Gate (with the fallback query substituted on rejection); every
`run_agent` execution trace therefore begins with a safe query, while the
repaired query is executed without re-validation. -/
theorem run_agent_first_query_gated (env : AgentEnv) (q : String)
    (rest : List String) (h : (run_agent env).2 = q :: rest) :
    is_safe_sql q = true := by
  rcases run_agent_trace_shape env with h0 | ⟨r2, h2⟩
  · rw [h0] at h
    cases h
  · rw [h2] at h
    injection h with hq _
    exact hq ▸ gatedQuery_safe env

/-- C1 witness: the gated first query of the counterexample environment. -/
theorem run_agent_first_query_gated_witness :
    is_safe_sql ("SELECT a FROM current_data") = true :=
  run_agent_first_query_gated envCE ("SELECT a FROM current_data")
    [("DROP TABLE current_data")] (by decide)

/-- C3: the Query Executor is invoked at most twice per `run_agent` call;
when the first Result Set is error-tagged and the repaired query's Result
Set is still error-tagged, the second result is final and the returned
metadata carries the query text used and the error message; when the second
attempt succeeds, its Result Set is final. -/
theorem run_agent_exec_at_most_twice (env : AgentEnv) :
    (run_agent env).2.length ≤ 2 ∧
    (∀ info r1 r2, env.info = some info →
      env.execQ (gatedQuery env) = Except.ok r1 → hasErrRow r1 = true →
      env.execQ (retryQuery env r1) = Except.ok r2 →
      (hasErrRow r2 = true →
        run_agent env = (stillFailResp info (retryQuery env r1) r2,
          [gatedQuery env, retryQuery env r1]) ∧
        (stillFailResp info (retryQuery env r1) r2).metadata.lookup ("query_used") =
          some (MetaVal.str (retryQuery env r1)) ∧
        (stillFailResp info (retryQuery env r1) r2).metadata.lookup ("error") =
          some (MetaVal.str (errOf r2))) ∧
      (∀ a, hasErrRow r2 = false → env.ans = Except.ok a →
        run_agent env = (okResp info (retryQuery env r1) r2 a,
          [gatedQuery env, retryQuery env r1]))) := by
  constructor
  · unfold run_agent
    cases hinfo : env.info with
    | none => simp
    | some info =>
      cases hx1 : env.execQ (gatedQuery env) with
      | error e => simp
      | ok r1 =>
        cases h1 : hasErrRow r1 with
        | false => cases ha : env.ans <;> simp [h1, ha]
        | true =>
          cases hx2 : env.execQ (retryQuery env r1) with
          | error e => simp [h1, hx2]
          | ok r2 =>
            cases h2 : hasErrRow r2 with
            | true => simp [h1, hx2, h2]
            | false => cases ha : env.ans <;> simp [h1, hx2, h2, ha]
  · intro info r1 r2 hinfo hx1 h1 hx2
    constructor
    · intro h2
      refine ⟨?_, rfl, rfl⟩
      simp [run_agent, hinfo, hx1, h1, hx2, h2]
    · intro a h2 ha
      simp [run_agent, hinfo, hx1, h1, hx2, h2, ha]

/-- C3 witness: both parts at a concrete double-failure environment. -/
theorem run_agent_exec_at_most_twice_witness :
    (run_agent envCE).2.length ≤ 2 ∧
    run_agent envCE = (stillFailResp { name := ("d"), columns := [("a")] }
        (retryQuery envCE rowsErrBoom) rowsErrBoom,
      [gatedQuery envCE, retryQuery envCE rowsErrBoom]) :=
  ⟨(run_agent_exec_at_most_twice envCE).1,
   (((run_agent_exec_at_most_twice envCE).2 { name := ("d"), columns := [("a")] }
      rowsErrBoom rowsErrBoom rfl rfl (by decide) rfl).1 (by decide)).1⟩

/-- C4: `run_agent` is total over every collaborator behaviour — for each
raising collaborator (executor on either attempt, final model call) and for
the missing-dataset case it returns a structured response whose metadata
carries an `error` field, rather than propagating the exception. -/
theorem run_agent_no_exception_escapes (env : AgentEnv) :
    (env.info = none → (run_agent env).1.metadata.lookup ("error") =
        some (MetaVal.str ("No dataset"))) ∧
    (∀ info e, env.info = some info →
      env.execQ (gatedQuery env) = Except.error e →
      run_agent env = (catchResp e, [gatedQuery env]) ∧
      (run_agent env).1.metadata.lookup ("error") = some (MetaVal.str e)) ∧
    (∀ info r1 e, env.info = some info →
      env.execQ (gatedQuery env) = Except.ok r1 → hasErrRow r1 = true →
      env.execQ (retryQuery env r1) = Except.error e →
      run_agent env = (catchResp e, [gatedQuery env, retryQuery env r1]) ∧
      (run_agent env).1.metadata.lookup ("error") = some (MetaVal.str e)) ∧
    (∀ info r1 e, env.info = some info →
      env.execQ (gatedQuery env) = Except.ok r1 → hasErrRow r1 = false →
      env.ans = Except.error e →
      run_agent env = (catchResp e, [gatedQuery env]) ∧
      (run_agent env).1.metadata.lookup ("error") = some (MetaVal.str e)) ∧
    (∀ info r1 r2 e, env.info = some info →
      env.execQ (gatedQuery env) = Except.ok r1 → hasErrRow r1 = true →
      env.execQ (retryQuery env r1) = Except.ok r2 → hasErrRow r2 = false →
      env.ans = Except.error e →
      run_agent env = (catchResp e, [gatedQuery env, retryQuery env r1]) ∧
      (run_agent env).1.metadata.lookup ("error") = some (MetaVal.str e)) := by
  refine ⟨?_, ?_, ?_, ?_, ?_⟩
  · intro hinfo
    simp [run_agent, hinfo]
  · intro info e hinfo hx1
    have hr : run_agent env = (catchResp e, [gatedQuery env]) := by
      simp [run_agent, hinfo, hx1]
    exact ⟨hr, by rw [hr]; rfl⟩
  · intro info r1 e hinfo hx1 h1 hx2
    have hr : run_agent env = (catchResp e, [gatedQuery env, retryQuery env r1]) := by
      simp [run_agent, hinfo, hx1, h1, hx2]
    exact ⟨hr, by rw [hr]; rfl⟩
  · intro info r1 e hinfo hx1 h1 ha
    have hr : run_agent env = (catchResp e, [gatedQuery env]) := by
      simp [run_agent, hinfo, hx1, h1, ha]
    exact ⟨hr, by rw [hr]; rfl⟩
  · intro info r1 r2 e hinfo hx1 h1 hx2 h2 ha
    have hr : run_agent env =
        (catchResp e, [gatedQuery env, retryQuery env r1]) := by
      simp [run_agent, hinfo, hx1, h1, hx2, h2, ha]
    exact ⟨hr, by rw [hr]; rfl⟩

def envErr : AgentEnv :=
  { info := some { name := ("d"), columns := [] },
    gen1 := Except.error ("no api key"),
    gen2 := fun _ => Except.error ("no api key"),
    execQ := fun _ => Except.error ("db down"),
    ans := Except.error ("no api key") }

/-- C4 witness: a raising executor is caught and surfaced in metadata. -/
theorem run_agent_no_exception_escapes_witness :
    run_agent envErr = (catchResp ("db down"), [gatedQuery envErr]) ∧
    (run_agent envErr).1.metadata.lookup ("error") =
      some (MetaVal.str ("db down")) :=
  (run_agent_no_exception_escapes envErr).2.1 { name := ("d"), columns := [] }
    ("db down") rfl rfl

/-- The tabular value stored for a dataset: columns, rows, dtype tags. -/
structure Df where
  columns : List String
  rows : List (List String)
  dtypes : List (String × String)
deriving DecidableEq

/-- The `DataManager` state: the process-wide current-dataset pointer and the
in-memory dataset registry. -/
structure DMState where
  current_dataset : Option String
  datasets : List (String × Df)
deriving DecidableEq

/-- Python `dataset_name or self.current_dataset` (an explicit name wins). -/
def resolveName (st : DMState) (dataset_name : Option String) : Option String :=
  match dataset_name with
  | some n => some n
  | none => st.current_dataset

/-- Python dict assignment `self.datasets[name] = entry`: replace in place
when the key exists, append otherwise. -/
def insertAssoc (l : List (String × Df)) (k : String) (v : Df) :
    List (String × Df) :=
  if (l.lookup k).isSome then l.map (fun p => if p.1 = k then (k, v) else p)
  else l ++ [(k, v)]

/-- Python `file.name.split('.')[-1]`. -/
def extSplit (s : List Char) : List Char := ((s.splitOn '.').getLast?).getD s

/-- The result dict of `upload_dataset`: the success shape carries
dataset_name, row_count, column_count and columns. -/
inductive UploadResult where
  | ok : String → Nat → Nat → List String → UploadResult
  | err : String → UploadResult
deriving DecidableEq

/-- An uploaded file: its filename (for extension dispatch) and the outcome
of each pandas reader on it (`Except.error` models a raising reader). -/
structure UploadFile where
  fname : String
  readCsv : Except String Df
  readExcel : Except String Df
  readJson : Except String Df

/-- `upload_dataset` (src/data_manager.py): dispatch on the lower-cased
extension, store the dataframe under the dataset name, and set the
process-wide current dataset to that name. -/
def upload_dataset (st : DMState) (file : UploadFile) (dataset_name : String) :
    UploadResult × DMState :=
  let ext := lowList (extSplit file.fname.data)
  let reader : Option (Except String Df) :=
    if ext = ("csv").data ∨ ext = ("txt").data then some file.readCsv
    else if ext = ("xlsx").data ∨ ext = ("xls").data then some file.readExcel
    else if ext = ("json").data then some file.readJson
    else none
  match reader with
  | none => (UploadResult.err (("Unsupported file format: ") ++ (⟨ext⟩ : String)), st)
  | some (Except.error e) => (UploadResult.err (("Error processing file: ") ++ e), st)
  | some (Except.ok df) =>
    (UploadResult.ok dataset_name df.rows.length df.columns.length df.columns,
     { current_dataset := some dataset_name,
       datasets := insertAssoc st.datasets dataset_name df })

/-- `set_current_dataset` (src/data_manager.py). -/
def set_current_dataset (st : DMState) (name : String) : Bool × DMState :=
  if (st.datasets.lookup name).isSome then
    (true, { st with current_dataset := some name })
  else (false, st)

/-- The behaviour of the engine connection during one `query_data` call:
`register` is `conn.register` and `runQuery` is `conn.execute(...).fetchdf()`
on the quoted query, each possibly raising. -/
structure ConnEnv where
  register : Except String Unit
  runQuery : List Char → Except String (List Row)

/-- The observable outcome of `query_data`: the returned Result Set plus
whether an engine connection was opened and whether it was closed before
returning. -/
structure QueryOutcome where
  result : List Row
  connOpened : Bool
  connClosed : Bool
deriving DecidableEq

/-- `query_data` (src/data_manager.py): resolve the dataset, open a
connection, register the dataframe, quote and execute the query, close the
connection on the success path and in the exception handler, converting any
engine failure into an enhanced error row. -/
def query_data (st : DMState) (conn : ConnEnv) (query : List Char)
    (dataset_name : Option String) : QueryOutcome :=
  match resolveName st dataset_name with
  | none =>
    { result := [[(("error"), ("No dataset selected"))]],
      connOpened := false, connClosed := false }
  | some name =>
    match st.datasets.lookup name with
    | none =>
      { result := [[(("error"), ("No dataset selected"))]],
        connOpened := false, connClosed := false }
    | some df =>
      match conn.register with
      | Except.error e =>
        { result := [[(("error"),
            (⟨enhance_error e.data (df.columns.map String.data)⟩ : String))]],
          connOpened := true, connClosed := true }
      | Except.ok _ =>
        match conn.runQuery
            (quote_column_names_smart query (df.columns.map String.data)) with
        | Except.error e =>
          { result := [[(("error"),
              (⟨enhance_error e.data (df.columns.map String.data)⟩ : String))]],
            connOpened := true, connClosed := true }
        | Except.ok rows =>
          { result := rows, connOpened := true, connClosed := true }

/-- C10: every successful `upload_dataset` call sets the process-wide
current-dataset pointer to the uploaded name, including when a different
dataset had been selected earlier via `set_current_dataset`. -/
theorem upload_dataset_sets_current (st : DMState) (file : UploadFile)
    (name : String) :
    (∀ n rc cc cols, (upload_dataset st file name).1 = UploadResult.ok n rc cc cols →
      (upload_dataset st file name).2.current_dataset = some name) ∧
    (∀ other, (set_current_dataset st other).1 = true →
      ∀ n rc cc cols,
        (upload_dataset (set_current_dataset st other).2 file name).1 =
          UploadResult.ok n rc cc cols →
        (upload_dataset (set_current_dataset st other).2 file name).2.current_dataset =
          some name) := by
  have key : ∀ st' : DMState, ∀ n rc cc cols,
      (upload_dataset st' file name).1 = UploadResult.ok n rc cc cols →
      (upload_dataset st' file name).2.current_dataset = some name := by
    intro st' n rc cc cols h
    simp only [upload_dataset] at h ⊢
    split at h
    · exact absurd h (by simp)
    · exact absurd h (by simp)
    · rfl
  exact ⟨key st, fun other _ => key (set_current_dataset st other).2⟩

def dfW : Df := { columns := [("a")], rows := [[("1")]], dtypes := [(("a"), ("int64"))] }

def fileW : UploadFile :=
  { fname := ("data.CSV"), readCsv := Except.ok dfW,
    readExcel := Except.error ("x"), readJson := Except.error ("x") }

def stW : DMState := { current_dataset := some ("old"), datasets := [(("old"), dfW)] }

/-- C10 witness: uploading `new` after selecting `old` makes `new`
current. -/
theorem upload_dataset_sets_current_witness :
    (upload_dataset (set_current_dataset stW ("old")).2 fileW ("new")).2.current_dataset =
      some ("new") :=
  (upload_dataset_sets_current stW fileW ("new")).2 ("old") (by decide) ("new")
    1 1 [("a")] (by decide)

/-- C8: the connection `query_data` opens is closed on the success path and
on every failure path: the connection is opened exactly when a dataset
resolves, and every outcome with an open connection records it closed,
with engine failures converted into an enhanced error Result Set. -/
theorem query_data_closes_connection (st : DMState) (conn : ConnEnv)
    (query : List Char) (dataset_name : Option String) :
    ((query_data st conn query dataset_name).connOpened = true ↔
      (query_data st conn query dataset_name).connClosed = true) ∧
    (∀ name df e, resolveName st dataset_name = some name →
      st.datasets.lookup name = some df → conn.register = Except.ok () →
      conn.runQuery (quote_column_names_smart query (df.columns.map String.data)) =
        Except.error e →
      query_data st conn query dataset_name =
        { result := [[(("error"),
            (⟨enhance_error e.data (df.columns.map String.data)⟩ : String))]],
          connOpened := true, connClosed := true }) ∧
    (∀ name df rows, resolveName st dataset_name = some name →
      st.datasets.lookup name = some df → conn.register = Except.ok () →
      conn.runQuery (quote_column_names_smart query (df.columns.map String.data)) =
        Except.ok rows →
      query_data st conn query dataset_name =
        { result := rows, connOpened := true, connClosed := true }) := by
  refine ⟨?_, ?_, ?_⟩
  · unfold query_data
    cases hr : resolveName st dataset_name with
    | none => simp
    | some name =>
      cases hl : st.datasets.lookup name with
      | none => simp [hl]
      | some df =>
        cases hreg : conn.register with
        | error e => simp [hl, hreg]
        | ok u =>
          cases hq : conn.runQuery
              (quote_column_names_smart query (df.columns.map String.data)) with
          | error e => simp [hl, hreg, hq]
          | ok rows => simp [hl, hreg, hq]
  · intro name df e hr hl hreg hq
    simp [query_data, hr, hl, hreg, hq]
  · intro name df rows hr hl hreg hq
    simp [query_data, hr, hl, hreg, hq]

def connErrW : ConnEnv :=
  { register := Except.ok (),
    runQuery := fun _ => Except.error ("Binder Error: col not found") }

/-- C8 witness: a failing execution still closes the connection and yields
an error Result Set. -/
theorem query_data_closes_connection_witness :
    query_data stW connErrW (("SELECT b FROM current_data").data) none =
      { result := [[(("error"),
          (⟨enhance_error (("Binder Error: col not found").data)
            ([("a").data])⟩ : String))]],
        connOpened := true, connClosed := true } :=
  (query_data_closes_connection stW connErrW (("SELECT b FROM current_data").data)
      none).2.1 ("old") dfW ("Binder Error: col not found") rfl rfl rfl rfl

theorem subColGo_fuel (col : List Char) (hcol : col ≠ []) :
    ∀ n m (prev : Option Char) (s : List Char), s.length ≤ n → s.length ≤ m →
      subColGo col n prev s = subColGo col m prev s := by
  intro n
  induction n with
  | zero =>
    intro m prev s hn _
    have hs : s = [] := List.eq_nil_of_length_eq_zero (Nat.le_zero.mp hn)
    subst hs
    cases m <;> rfl
  | succ n ih =>
    intro m prev s hn hm
    cases s with
    | nil => cases m <;> rfl
    | cons c cs =>
      cases m with
      | zero => simp at hm
      | succ m =>
        have hlcol : 1 ≤ col.length := by
          cases col with
          | nil => exact absurd rfl hcol
          | cons a as => simp
        simp only [subColGo]
        by_cases he : eligAtB col prev (c :: cs) = true
        · rw [if_pos he, if_pos he]
          simp only [List.length_cons] at hn hm
          have hdrop : (List.drop col.length (c :: cs)).length ≤ n := by
            simp only [List.length_drop, List.length_cons]
            omega
          have hdrop2 : (List.drop col.length (c :: cs)).length ≤ m := by
            simp only [List.length_drop, List.length_cons]
            omega
          rw [ih m _ _ hdrop hdrop2]
        · rw [if_neg he, if_neg he]
          have h1 : cs.length ≤ n := by simpa using hn
          have h2 : cs.length ≤ m := by simpa using hm
          rw [ih m _ _ h1 h2]

/-- The `re.sub` scan with its fuel fixed to the length of the scanned text. -/
def subColF (col : List Char) (prev : Option Char) (s : List Char) : List Char :=
  subColGo col s.length prev s

theorem subCol_eq_subColF (col s : List Char) :
    subCol col s = if col.isEmpty then s else subColF col none s := rfl

theorem subColF_nil (col : List Char) (prev : Option Char) :
    subColF col prev [] = [] := by
  cases col <;> rfl

theorem subColF_cons (col : List Char) (hcol : col ≠ []) (prev : Option Char)
    (c : Char) (cs : List Char) :
    subColF col prev (c :: cs) =
      if eligAtB col prev (c :: cs) then
        qChar :: (col ++ qChar ::
          subColF col ((List.take col.length (c :: cs)).getLast?)
            (List.drop col.length (c :: cs)))
      else c :: subColF col (some c) cs := by
  have hlcol : 1 ≤ col.length := by
    cases col with
    | nil => exact absurd rfl hcol
    | cons a as => simp
  show subColGo col (cs.length + 1) prev (c :: cs) = _
  simp only [subColGo]
  by_cases he : eligAtB col prev (c :: cs) = true
  · rw [if_pos he, if_pos he]
    have hd : (List.drop col.length (c :: cs)).length ≤ cs.length := by
      simp only [List.length_drop, List.length_cons]
      omega
    rw [subColGo_fuel col hcol cs.length (List.drop col.length (c :: cs)).length _ _ hd
      (Nat.le_refl _)]
    rfl
  · rw [if_neg he, if_neg he]
    rfl

/-- The character preceding position `j` of `s` in the scanned string
(`prev` before position 0). -/
def prevAt (prev : Option Char) (s : List Char) : Nat → Option Char
  | 0 => prev
  | k + 1 => s.get? k

/-- The regex pattern of `_quote_column_names_smart` matches at position `j`
of `s`. -/
def EligAtP (col : List Char) (prev : Option Char) (s : List Char) (j : Nat) :
    Prop :=
  okBefore (prevAt prev s j) = true ∧ mCI col (s.drop j) = true ∧
    okAfterO (s.get? (j + col.length)) = true

/-- Some position of `s` matches the pattern (scan-independent form). -/
def hasElig (col : List Char) : Option Char → List Char → Bool
  | _, [] => false
  | prev, c :: cs => eligAtB col prev (c :: cs) || hasElig col (some c) cs

theorem eligAtB_iff_P (col : List Char) (prev : Option Char) (s : List Char) :
    eligAtB col prev s = true ↔ EligAtP col prev s 0 := by
  simp [eligAtB, EligAtP, prevAt, Bool.and_eq_true, and_assoc]

theorem EligAtP_cons_succ (col : List Char) (prev : Option Char) (c : Char)
    (cs : List Char) (j : Nat) :
    EligAtP col prev (c :: cs) (j + 1) ↔ EligAtP col (some c) cs j := by
  unfold EligAtP
  have hprev : prevAt prev (c :: cs) (j + 1) = prevAt (some c) cs j := by
    cases j with
    | zero => rfl
    | succ k => rfl
  have h1 : List.drop (j + 1) (c :: cs) = List.drop j cs := rfl
  have h2 : (c :: cs).get? (j + 1 + col.length) = cs.get? (j + col.length) := by
    have h3 : j + 1 + col.length = (j + col.length) + 1 := by omega
    rw [h3]
    rfl
  rw [hprev, h1, h2]

theorem hasElig_iff (col : List Char) :
    ∀ (s : List Char) (prev : Option Char),
      hasElig col prev s = true ↔ ∃ j, j < s.length ∧ EligAtP col prev s j := by
  intro s
  induction s with
  | nil =>
    intro prev
    simp [hasElig]
  | cons c cs ih =>
    intro prev
    simp only [hasElig, Bool.or_eq_true, ih, eligAtB_iff_P]
    constructor
    · rintro (h | ⟨j, hj, hP⟩)
      · exact ⟨0, by simp, h⟩
      · exact ⟨j + 1, by simpa using hj, (EligAtP_cons_succ col prev c cs j).mpr hP⟩
    · rintro ⟨j, hj, hP⟩
      cases j with
      | zero => exact Or.inl hP
      | succ k =>
        exact Or.inr ⟨k, by simpa using hj, (EligAtP_cons_succ col prev c cs k).mp hP⟩

theorem hasElig_false_iff (col : List Char) (s : List Char) (prev : Option Char) :
    hasElig col prev s = false ↔ ∀ j, j < s.length → ¬ EligAtP col prev s j := by
  rw [← Bool.not_eq_true, hasElig_iff]
  push_neg
  rfl

theorem hasElig_drop (col : List Char) :
    ∀ (t : Nat) (s : List Char) (prev : Option Char), hasElig col prev s = false →
      hasElig col (prevAt prev s t) (s.drop t) = false := by
  intro t
  induction t with
  | zero => intro s prev h; exact h
  | succ k ih =>
    intro s prev h
    cases s with
    | nil => simp [hasElig]
    | cons c cs =>
      have htail : hasElig col (some c) cs = false := by
        have := h
        simp only [hasElig, Bool.or_eq_false_iff] at this
        exact this.2
      have hp : prevAt prev (c :: cs) (k + 1) = prevAt (some c) cs k := by
        cases k <;> rfl
      show hasElig col (prevAt prev (c :: cs) (k + 1)) (List.drop k cs) = false
      rw [hp]
      exact ih cs (some c) htail

theorem mCI_length : ∀ {p t : List Char}, mCI p t = true → p.length ≤ t.length := by
  intro p
  induction p with
  | nil => intro t _; simp
  | cons a as ih =>
    intro t h
    cases t with
    | nil => simp [mCI] at h
    | cons b bs =>
      simp only [mCI, Bool.and_eq_true] at h
      simpa using ih h.2

theorem mCI_get : ∀ {p t : List Char}, mCI p t = true → ∀ r, r < p.length →
    ∃ a b, p.get? r = some a ∧ t.get? r = some b ∧
      Char.toLower a = Char.toLower b := by
  intro p
  induction p with
  | nil => intro t _ r hr; simp at hr
  | cons x xs ih =>
    intro t h r hr
    cases t with
    | nil => simp [mCI] at h
    | cons y ys =>
      simp only [mCI, Bool.and_eq_true, lowEqB, beq_iff_eq] at h
      cases r with
      | zero => exact ⟨x, y, rfl, rfl, h.1⟩
      | succ k =>
        have := ih h.2 k (by simpa using hr)
        simpa using this

theorem mCI_of_get : ∀ {p t : List Char},
    (∀ r, r < p.length → ∃ a b, p.get? r = some a ∧ t.get? r = some b ∧
      Char.toLower a = Char.toLower b) → mCI p t = true := by
  intro p
  induction p with
  | nil => intro t _; rfl
  | cons x xs ih =>
    intro t h
    obtain ⟨a, b, ha, hb, hab⟩ := h 0 (by simp)
    cases t with
    | nil => simp at hb
    | cons y ys =>
      simp only [List.get?] at ha hb
      obtain rfl : x = a := by injection ha
      obtain rfl : y = b := by injection hb
      simp only [mCI, Bool.and_eq_true, lowEqB, beq_iff_eq]
      refine ⟨hab, ih ?_⟩
      intro r hr
      have := h (r + 1) (by simpa using hr)
      simpa using this

theorem lowEq_wordChar {a b : Char} (h : Char.toLower a = Char.toLower b) :
    wordChar a = wordChar b := by
  rw [← wordChar_toLower a, ← wordChar_toLower b, h]

theorem lowEq_qChar {a b : Char} (h : Char.toLower a = Char.toLower b) :
    a = qChar ↔ b = qChar := by
  constructor
  · intro ha
    subst ha
    exact toLower_eq_qChar.mp (by rw [← h]; decide)
  · intro hb
    subst hb
    exact toLower_eq_qChar.mp (by rw [h]; decide)

theorem okBefore_transfer {a b : Char} (h : Char.toLower a = Char.toLower b) :
    okBefore (some a) = okBefore (some b) := by
  by_cases ha : a = qChar
  · have hb : b = qChar := (lowEq_qChar h).mp ha
    rw [ha, hb]
  · have hb : ¬ b = qChar := fun hb => ha ((lowEq_qChar h).mpr hb)
    simp only [okBefore]
    rw [lowEq_wordChar h]
    have h1 : (a == qChar) = false := by simpa using ha
    have h2 : (b == qChar) = false := by simpa using hb
    rw [h1, h2]

theorem okAfterO_transfer {a b : Char} (h : Char.toLower a = Char.toLower b) :
    okAfterO (some a) = okAfterO (some b) := by
  by_cases ha : a = qChar
  · have hb : b = qChar := (lowEq_qChar h).mp ha
    rw [ha, hb]
  · have hb : ¬ b = qChar := fun hb => ha ((lowEq_qChar h).mpr hb)
    simp only [okAfterO]
    rw [lowEq_wordChar h]
    have h1 : (a == qChar) = false := by simpa using ha
    have h2 : (b == qChar) = false := by simpa using hb
    rw [h1, h2]

theorem mCI_no_qChar {p t : List Char} (hp : qChar ∉ p) (h : mCI p t = true) :
    ∀ r, r < p.length → t.get? r ≠ some qChar := by
  intro r hr hq
  obtain ⟨a, b, ha, hb, hab⟩ := mCI_get h r hr
  rw [hb] at hq
  obtain rfl : b = qChar := by injection hq
  have haq : a = qChar := (lowEq_qChar hab).mpr rfl
  exact hp (haq ▸ List.get?_mem ha)

theorem eligAtB_head_ne_qChar {col : List Char} (hq : qChar ∉ col)
    (hcol : col ≠ []) {prev : Option Char} {c : Char} {cs : List Char}
    (h : eligAtB col prev (c :: cs) = true) : c ≠ qChar := by
  simp only [eligAtB, Bool.and_eq_true] at h
  obtain ⟨a, b, ha, hb, hab⟩ := mCI_get h.1.2 0 (by
    cases col with
    | nil => exact absurd rfl hcol
    | cons x xs => simp)
  simp only [List.get?] at hb
  obtain rfl : c = b := by injection hb
  intro hcq
  have : a = qChar := (lowEq_qChar hab).mpr hcq
  exact hq (this ▸ List.get?_mem ha)

theorem subColF_eq_self_iff (col : List Char) (hcol : col ≠ [])
    (hq : qChar ∉ col) :
    ∀ (s : List Char) (prev : Option Char),
      subColF col prev s = s ↔ hasElig col prev s = false := by
  intro s
  induction s with
  | nil => intro prev; simp [subColF_nil, hasElig]
  | cons c cs ih =>
    intro prev
    rw [subColF_cons col hcol]
    by_cases he : eligAtB col prev (c :: cs) = true
    · rw [if_pos he]
      constructor
      · intro hcontra
        have hc : c ≠ qChar := eligAtB_head_ne_qChar hq hcol he
        have : qChar = c := by
          have := congrArg List.head? hcontra
          simpa using this
        exact absurd this.symm hc
      · intro hcontra
        simp [hasElig, he] at hcontra
    · rw [if_neg he]
      simp only [hasElig, Bool.or_eq_false_iff, List.cons.injEq, true_and]
      constructor
      · intro h
        exact ⟨by simpa using he, (ih (some c)).mp h⟩
      · intro h
        exact (ih (some c)).mpr h.2

theorem subColF_unchanged_or_contains (col : List Char) (hcol : col ≠ []) :
    ∀ (s : List Char) (prev : Option Char),
      subColF col prev s = s ∨ copyTok col <:+: subColF col prev s := by
  intro s
  induction s with
  | nil => intro prev; exact Or.inl (subColF_nil col prev)
  | cons c cs ih =>
    intro prev
    rw [subColF_cons col hcol]
    by_cases he : eligAtB col prev (c :: cs) = true
    · rw [if_pos he]
      refine Or.inr ?_
      refine ⟨[], subColF col ((List.take col.length (c :: cs)).getLast?)
        (List.drop col.length (c :: cs)), ?_⟩
      simp [copyTok]
    · rw [if_neg he]
      rcases ih (some c) with h | h
      · exact Or.inl (by rw [h])
      · exact Or.inr (h.trans (List.suffix_cons c _).isInfix)

theorem subColF_struct (col : List Char) (hcol : col ≠ []) :
    ∀ (s : List Char) (prev : Option Char),
      subColF col prev s = s ∨
      ∃ k, k + col.length ≤ s.length ∧
        (∀ j, j < k → ¬ EligAtP col prev s j) ∧
        EligAtP col prev s k ∧
        subColF col prev s = s.take k ++ qChar :: (col ++ qChar ::
          subColF col (((s.drop k).take col.length).getLast?)
            ((s.drop k).drop col.length)) := by
  intro s
  induction s with
  | nil => intro prev; exact Or.inl (subColF_nil col prev)
  | cons c cs ih =>
    intro prev
    rw [subColF_cons col hcol]
    by_cases he : eligAtB col prev (c :: cs) = true
    · rw [if_pos he]
      refine Or.inr ⟨0, ?_, by omega, (eligAtB_iff_P col prev (c :: cs)).mp he, ?_⟩
      · have := mCI_length (by
          simp only [eligAtB, Bool.and_eq_true] at he
          exact he.1.2)
        simpa using this
      · simp
    · rw [if_neg he]
      rcases ih (some c) with hl | ⟨k, hk, hmin, hElig, hshape⟩
      · exact Or.inl (by rw [hl])
      · refine Or.inr ⟨k + 1, ?_, ?_, ?_, ?_⟩
        · simp only [List.length_cons]
          omega
        · intro j hj
          cases j with
          | zero =>
            rw [← eligAtB_iff_P]
            simpa using he
          | succ j =>
            rw [EligAtP_cons_succ]
            exact hmin j (by omega)
        · exact (EligAtP_cons_succ col prev c cs k).mpr hElig
        · rw [hshape]
          rfl

theorem blockGet (A d w : List Char) (k : Nat) (hA : A.length = k) :
    (∀ r, r < k → (A ++ qChar :: (d ++ qChar :: w)).get? r = A.get? r) ∧
    (A ++ qChar :: (d ++ qChar :: w)).get? k = some qChar ∧
    (∀ i, i < d.length →
      (A ++ qChar :: (d ++ qChar :: w)).get? (k + 1 + i) = d.get? i) ∧
    (A ++ qChar :: (d ++ qChar :: w)).get? (k + 1 + d.length) = some qChar ∧
    (∀ t, (A ++ qChar :: (d ++ qChar :: w)).get? (k + d.length + 2 + t) =
      w.get? t) ∧
    (A ++ qChar :: (d ++ qChar :: w)).length = k + d.length + 2 + w.length := by
  refine ⟨?_, ?_, ?_, ?_, ?_, ?_⟩
  · intro r hr
    exact List.get?_append (by omega)
  · rw [List.get?_append_right (by omega)]
    simp [hA]
  · intro i hi
    rw [List.get?_append_right (by omega)]
    have h1 : k + 1 + i - A.length = i + 1 := by omega
    rw [h1]
    show (d ++ qChar :: w).get? i = d.get? i
    exact List.get?_append hi
  · rw [List.get?_append_right (by omega)]
    have h1 : k + 1 + d.length - A.length = d.length + 1 := by omega
    rw [h1]
    show (d ++ qChar :: w).get? d.length = some qChar
    rw [List.get?_append_right (by omega)]
    simp
  · intro t
    rw [List.get?_append_right (by omega)]
    have h1 : k + d.length + 2 + t - A.length = d.length + 1 + t + 1 := by omega
    rw [h1]
    show (d ++ qChar :: w).get? (d.length + 1 + t) = w.get? t
    rw [List.get?_append_right (by omega)]
    have h2 : d.length + 1 + t - d.length = t + 1 := by omega
    rw [h2]
    rfl
  · simp only [List.length_append, List.length_cons, hA]
    omega

theorem okBefore_qChar : okBefore (some qChar) = false := by decide

theorem okAfterO_qChar : okAfterO (some qChar) = false := by decide

theorem prevAt_pos (prev : Option Char) (s : List Char) (j : Nat) (hj : 0 < j) :
    prevAt prev s j = s.get? (j - 1) := by
  cases j with
  | zero => omega
  | succ k => rfl

theorem subColF_exhaust (d : List Char) (hd : d ≠ []) (hdq : qChar ∉ d) :
    ∀ (n : Nat) (s : List Char), s.length ≤ n → ∀ prev : Option Char,
      hasElig d prev (subColF d prev s) = false := by
  have hdl : 1 ≤ d.length := by
    cases d with
    | nil => exact absurd rfl hd
    | cons a as => simp
  intro n
  induction n with
  | zero =>
    intro s hs prev
    have : s = [] := List.eq_nil_of_length_eq_zero (Nat.le_zero.mp hs)
    subst this
    rw [subColF_nil]
    rfl
  | succ n ih =>
    intro s hs prev
    rcases subColF_struct d hd s prev with hid | ⟨k, hk, hmin, hElig, hshape⟩
    · rw [hid]
      exact (subColF_eq_self_iff d hd hdq s prev).mp hid
    · rw [hshape]
      have hAlen : (s.take k).length = k := by
        rw [List.length_take]
        omega
      obtain ⟨hg1, hg2, hg3, hg4, hg5, hg6⟩ :=
        blockGet (s.take k) d
          (subColF d (((s.drop k).take d.length).getLast?)
            ((s.drop k).drop d.length)) k hAlen
      set w := subColF d (((s.drop k).take d.length).getLast?)
        ((s.drop k).drop d.length) with hw
      set v := s.take k ++ qChar :: (d ++ qChar :: w) with hv
      have hvg : ∀ r, r < k → v.get? r = s.get? r := by
        intro r hr
        rw [hg1 r hr, List.get?_take hr]
      have hwlen : ((s.drop k).drop d.length).length ≤ n := by
        simp only [List.length_drop]
        omega
      have hwAll := (hasElig_false_iff d w
        (((s.drop k).take d.length).getLast?)).mp
        (ih ((s.drop k).drop d.length) hwlen (((s.drop k).take d.length).getLast?))
      obtain ⟨hkB, hkM, hkA⟩ := hElig
      rw [hasElig_false_iff]
      intro j hj hP
      obtain ⟨hB, hM, hA⟩ := hP
      have hdropget : ∀ r, (v.drop j).get? r = v.get? (j + r) := by
        intro r
        rw [List.get?_drop]
      rcases Nat.lt_trichotomy j k with hjk | hjk | hjk
      · -- prefix region
        by_cases hcross : j + d.length ≤ k
        · -- fully inside the prefix: contradicts minimality
          refine hmin j hjk ⟨?_, ?_, ?_⟩
          · cases j with
            | zero => exact hB
            | succ j0 =>
              rw [prevAt_pos _ _ _ (by omega)] at hB ⊢
              simp only [Nat.add_sub_cancel] at hB ⊢
              rw [← hvg j0 (by omega)]
              exact hB
          · refine mCI_of_get ?_
            intro r hr
            obtain ⟨a, b, ha, hb, hab⟩ := mCI_get hM r hr
            rw [hdropget r, hvg (j + r) (by omega)] at hb
            exact ⟨a, b, ha, by rw [List.get?_drop]; exact hb, hab⟩
          · by_cases hedge : j + d.length = k
            · rw [hedge, hg2] at hA
              rw [okAfterO_qChar] at hA
              cases hA
            · rw [← hvg (j + d.length) (by omega)]
              exact hA
        · -- span crosses the opening quote
          have h0 : (v.drop j).get? (k - j) = some qChar := by
            rw [hdropget, show j + (k - j) = k by omega, hg2]
          exact mCI_no_qChar hdq hM (k - j) (by omega) h0
      · -- at the opening quote
        subst hjk
        have h0 : (v.drop j).get? 0 = some qChar := by
          rw [hdropget, Nat.add_zero, hg2]
        exact mCI_no_qChar hdq hM 0 (by omega) h0
      · -- j > k
        rcases Nat.lt_trichotomy j (k + 1 + d.length) with hj2 | hj2 | hj2
        · -- inside the replacement block
          by_cases hi0 : j = k + 1
          · subst hi0
            rw [prevAt_pos _ _ _ (by omega)] at hB
            rw [show k + 1 - 1 = k by omega, hg2, okBefore_qChar] at hB
            cases hB
          · -- i ≥ 1: the span reaches the closing quote
            have h0 : (v.drop j).get? (k + 1 + d.length - j) = some qChar := by
              rw [hdropget, show j + (k + 1 + d.length - j) = k + 1 + d.length by omega,
                hg4]
            exact mCI_no_qChar hdq hM (k + 1 + d.length - j) (by omega) h0
        · -- at the closing quote
          have h0 : (v.drop j).get? 0 = some qChar := by
            rw [hdropget, Nat.add_zero, hj2, hg4]
          exact mCI_no_qChar hdq hM 0 (by omega) h0
        · -- inside the tail w
          have ht : j - (k + d.length + 2) < w.length := by
            rw [hg6] at hj
            omega
          by_cases ht0 : j = k + d.length + 2
          · -- first position of w: preceded by the closing quote
            rw [prevAt_pos _ _ _ (by omega)] at hB
            rw [show j - 1 = k + 1 + d.length by omega, hg4, okBefore_qChar] at hB
            cases hB
          · refine hwAll (j - (k + d.length + 2)) ht ⟨?_, ?_, ?_⟩
            · rw [prevAt_pos _ _ _ (by omega)] at hB
              rw [prevAt_pos _ _ _ (by omega)]
              rw [show j - 1 = k + d.length + 2 + (j - (k + d.length + 2) - 1) by omega,
                hg5] at hB
              exact hB
            · refine mCI_of_get ?_
              intro r hr
              obtain ⟨a, b, ha, hb, hab⟩ := mCI_get hM r hr
              rw [hdropget r,
                show j + r = k + d.length + 2 + (j - (k + d.length + 2) + r) by omega,
                hg5] at hb
              exact ⟨a, b, ha, by rw [List.get?_drop]; exact hb, hab⟩
            · rw [show j + d.length = k + d.length + 2 +
                (j - (k + d.length + 2) + d.length) by omega, hg5] at hA
              exact hA

theorem getLast?_take_drop (s : List Char) (k m : Nat) (hm : 1 ≤ m)
    (hkm : k + m ≤ s.length) :
    ((s.drop k).take m).getLast? = s.get? (k + m - 1) := by
  have hlen : ((s.drop k).take m).length = m := by
    rw [List.length_take, List.length_drop]
    omega
  rw [List.getLast?_eq_get?, hlen, List.get?_take (by omega), List.get?_drop]
  congr 1
  omega

theorem subColF_preserves_noElig (c : List Char) (hc : c ≠ []) (hcq : qChar ∉ c)
    (d : List Char) (hd : d ≠ []) (hdq : qChar ∉ d) :
    ∀ (n : Nat) (s : List Char), s.length ≤ n → ∀ prev : Option Char,
      hasElig c prev s = false → hasElig c prev (subColF d prev s) = false := by
  have hdl : 1 ≤ d.length := by
    cases d with
    | nil => exact absurd rfl hd
    | cons a as => simp
  have hcl : 1 ≤ c.length := by
    cases c with
    | nil => exact absurd rfl hc
    | cons a as => simp
  intro n
  induction n with
  | zero =>
    intro s hs prev _
    have : s = [] := List.eq_nil_of_length_eq_zero (Nat.le_zero.mp hs)
    subst this
    rw [subColF_nil]
    rfl
  | succ n ih =>
    intro s hs prev hnone
    rcases subColF_struct d hd s prev with hid | ⟨k, hk, hmin, hElig, hshape⟩
    · rw [hid]
      exact hnone
    · rw [hshape]
      have hAlen : (s.take k).length = k := by
        rw [List.length_take]
        omega
      obtain ⟨hg1, hg2, hg3, hg4, hg5, hg6⟩ :=
        blockGet (s.take k) d
          (subColF d (((s.drop k).take d.length).getLast?)
            ((s.drop k).drop d.length)) k hAlen
      set w := subColF d (((s.drop k).take d.length).getLast?)
        ((s.drop k).drop d.length) with hw
      set v := s.take k ++ qChar :: (d ++ qChar :: w) with hv
      have hvg : ∀ r, r < k → v.get? r = s.get? r := by
        intro r hr
        rw [hg1 r hr, List.get?_take hr]
      have hsAll := (hasElig_false_iff c s prev).mp hnone
      -- the tail keeps no eligible position of c
      have hprev' : ((s.drop k).take d.length).getLast? =
          prevAt prev s (k + d.length) := by
        rw [getLast?_take_drop s k d.length hdl hk, prevAt_pos _ _ _ (by omega)]
      have hdd : (s.drop k).drop d.length = s.drop (k + d.length) := by
        rw [List.drop_drop]
      have htail : hasElig c (((s.drop k).take d.length).getLast?)
          ((s.drop k).drop d.length) = false := by
        rw [hprev', hdd]
        exact hasElig_drop c (k + d.length) s prev hnone
      have hwlen : ((s.drop k).drop d.length).length ≤ n := by
        simp only [List.length_drop]
        omega
      have hwAll := (hasElig_false_iff c w _).mp
        (ih ((s.drop k).drop d.length) hwlen
          (((s.drop k).take d.length).getLast?) htail)
      obtain ⟨hkB, hkM, hkA⟩ := hElig
      rw [hasElig_false_iff]
      intro j hj hP
      obtain ⟨hB, hM, hA⟩ := hP
      have hdropget : ∀ j r, (v.drop j).get? r = v.get? (j + r) := by
        intro j r
        rw [List.get?_drop]
      rcases Nat.lt_trichotomy j k with hjk | hjk | hjk
      · -- prefix region
        by_cases hcross : j + c.length ≤ k
        · refine hsAll j (by omega) ⟨?_, ?_, ?_⟩
          · cases j with
            | zero => exact hB
            | succ j0 =>
              rw [prevAt_pos _ _ _ (by omega)] at hB ⊢
              simp only [Nat.add_sub_cancel] at hB ⊢
              rw [← hvg j0 (by omega)]
              exact hB
          · refine mCI_of_get ?_
            intro r hr
            obtain ⟨a, b, ha, hb, hab⟩ := mCI_get hM r hr
            rw [hdropget j r, hvg (j + r) (by omega)] at hb
            exact ⟨a, b, ha, by rw [List.get?_drop]; exact hb, hab⟩
          · by_cases hedge : j + c.length = k
            · rw [hedge, hg2, okAfterO_qChar] at hA
              cases hA
            · rw [← hvg (j + c.length) (by omega)]
              exact hA
        · have h0 : (v.drop j).get? (k - j) = some qChar := by
            rw [hdropget, show j + (k - j) = k by omega, hg2]
          exact mCI_no_qChar hcq hM (k - j) (by omega) h0
      · subst hjk
        have h0 : (v.drop j).get? 0 = some qChar := by
          rw [hdropget, Nat.add_zero, hg2]
        exact mCI_no_qChar hcq hM 0 (by omega) h0
      · rcases Nat.lt_trichotomy j (k + 1 + d.length) with hj2 | hj2 | hj2
        · -- inside the replacement block
          by_cases hi0 : j = k + 1
          · subst hi0
            rw [prevAt_pos _ _ _ (by omega),
              show k + 1 - 1 = k by omega, hg2, okBefore_qChar] at hB
            cases hB
          · by_cases hcross : k + 1 + d.length < j + c.length
            · -- span reaches the closing quote
              have h0 : (v.drop j).get? (k + 1 + d.length - j) = some qChar := by
                rw [hdropget,
                  show j + (k + 1 + d.length - j) = k + 1 + d.length by omega, hg4]
              exact mCI_no_qChar hcq hM (k + 1 + d.length - j) (by omega) h0
            · by_cases hedge : j + c.length = k + 1 + d.length
              · rw [hedge, hg4, okAfterO_qChar] at hA
                cases hA
              · -- strictly interior: transfer to the matched span of s
                have hi1 : k + 1 < j := by omega
                have hspan : j + c.length < k + 1 + d.length := by omega
                refine hsAll (j - 1) (by omega) ⟨?_, ?_, ?_⟩
                · rw [prevAt_pos _ _ _ (by omega)] at hB
                  rw [prevAt_pos _ _ _ (by omega)]
                  obtain ⟨a, b, ha, hb, hab⟩ := mCI_get hkM (j - k - 2) (by omega)
                  rw [List.get?_drop] at hb
                  rw [show j - 1 = k + 1 + (j - k - 2) by omega,
                    hg3 _ (by omega), ha] at hB
                  rw [show j - 1 - 1 = k + (j - k - 2) by omega, hb,
                    ← okBefore_transfer hab]
                  exact hB
                · refine mCI_of_get ?_
                  intro r hr
                  obtain ⟨x, y, hx, hy, hxy⟩ := mCI_get hM r hr
                  rw [hdropget j r,
                    show j + r = k + 1 + (j + r - k - 1) by omega,
                    hg3 _ (by omega)] at hy
                  obtain ⟨a, b, ha, hb, hab⟩ := mCI_get hkM (j + r - k - 1) (by omega)
                  rw [hy] at ha
                  obtain rfl : y = a := by injection ha
                  rw [List.get?_drop] at hb
                  refine ⟨x, b, hx, ?_, hxy.trans hab⟩
                  rw [List.get?_drop,
                    show j - 1 + r = k + (j + r - k - 1) by omega]
                  exact hb
                · rw [show j + c.length = k + 1 + (j + c.length - k - 1) by omega,
                    hg3 _ (by omega)] at hA
                  obtain ⟨a, b, ha, hb, hab⟩ :=
                    mCI_get hkM (j + c.length - k - 1) (by omega)
                  rw [ha] at hA
                  rw [List.get?_drop] at hb
                  rw [show j - 1 + c.length = k + (j + c.length - k - 1) by omega, hb,
                    ← okAfterO_transfer hab]
                  exact hA
        · have h0 : (v.drop j).get? 0 = some qChar := by
            rw [hdropget, Nat.add_zero, hj2, hg4]
          exact mCI_no_qChar hcq hM 0 (by omega) h0
        · have ht : j - (k + d.length + 2) < w.length := by
            rw [hg6] at hj
            omega
          by_cases ht0 : j = k + d.length + 2
          · rw [prevAt_pos _ _ _ (by omega),
              show j - 1 = k + 1 + d.length by omega, hg4, okBefore_qChar] at hB
            cases hB
          · refine hwAll (j - (k + d.length + 2)) ht ⟨?_, ?_, ?_⟩
            · rw [prevAt_pos _ _ _ (by omega)] at hB
              rw [prevAt_pos _ _ _ (by omega)]
              rw [show j - 1 = k + d.length + 2 + (j - (k + d.length + 2) - 1) by omega,
                hg5] at hB
              exact hB
            · refine mCI_of_get ?_
              intro r hr
              obtain ⟨a, b, ha, hb, hab⟩ := mCI_get hM r hr
              rw [hdropget j r,
                show j + r = k + d.length + 2 + (j - (k + d.length + 2) + r) by omega,
                hg5] at hb
              exact ⟨a, b, ha, by rw [List.get?_drop]; exact hb, hab⟩
            · rw [show j + c.length = k + d.length + 2 +
                (j - (k + d.length + 2) + c.length) by omega, hg5] at hA
              exact hA

theorem inner_elig_transfer (c d : List Char) (hcq : qChar ∉ c)
    (hdq : qChar ∉ d)
    (hInner : hasElig d (some qChar) (c ++ [qChar]) = true) :
    ∀ (v : List Char) (prev : Option Char),
      hasElig c prev v = true → hasElig d prev v = true := by
  obtain ⟨i, hilen, iB, iM, iA⟩ := (hasElig_iff d (c ++ [qChar]) (some qChar)).mp hInner
  simp only [List.length_append, List.length_cons, List.length_nil] at hilen
  have hi1 : 1 ≤ i := by
    rcases Nat.eq_zero_or_pos i with h0 | h1
    · subst h0
      rw [show prevAt (some qChar) (c ++ [qChar]) 0 = some qChar from rfl,
        okBefore_qChar] at iB
      cases iB
    · exact h1
  have hccat : ∀ t, t < c.length → (c ++ [qChar]).get? t = c.get? t := by
    intro t ht
    exact List.get?_append ht
  have hqcat : (c ++ [qChar]).get? c.length = some qChar := by
    rw [List.get?_append_right (by omega)]
    simp
  have hspan : i + d.length ≤ c.length := by
    by_contra hcon
    push_neg at hcon
    have h0 : ((c ++ [qChar]).drop i).get? (c.length - i) = some qChar := by
      rw [List.get?_drop, show i + (c.length - i) = c.length by omega, hqcat]
    exact mCI_no_qChar hdq iM (c.length - i) (by omega) h0
  have hstrict : i + d.length < c.length := by
    rcases Nat.lt_or_ge (i + d.length) c.length with h | h
    · exact h
    · have he : i + d.length = c.length := by omega
      rw [he, hqcat, okAfterO_qChar] at iA
      cases iA
  intro v prev hv
  obtain ⟨j, hjlen, jB, jM, jA⟩ := (hasElig_iff c v prev).mp hv
  have hclen : c.length ≤ v.length - j := by
    have := mCI_length jM
    simpa using this
  rw [hasElig_iff]
  refine ⟨j + i, by omega, ?_, ?_, ?_⟩
  · -- okBefore
    rw [prevAt_pos _ _ _ (by omega)]
    obtain ⟨p, q, hp, hq, hpq⟩ := mCI_get jM (i - 1) (by omega)
    rw [List.get?_drop, show j + (i - 1) = j + i - 1 by omega] at hq
    rw [prevAt_pos _ _ _ (by omega), hccat (i - 1) (by omega)] at iB
    rw [hp] at iB
    rw [hq, ← okBefore_transfer hpq]
    exact iB
  · refine mCI_of_get ?_
    intro r hr
    obtain ⟨a, b, ha, hb, hab⟩ := mCI_get iM r hr
    rw [List.get?_drop, hccat (i + r) (by omega)] at hb
    obtain ⟨b2, z, hb2, hz, hbz⟩ := mCI_get jM (i + r) (by omega)
    rw [hb] at hb2
    obtain rfl : b = b2 := by injection hb2
    rw [List.get?_drop] at hz
    refine ⟨a, z, ha, ?_, hab.trans hbz⟩
    rw [List.get?_drop, show j + i + r = j + (i + r) by omega]
    exact hz
  · rw [hccat (i + d.length) (by omega)] at iA
    obtain ⟨u, z, hu, hz, huz⟩ := mCI_get jM (i + d.length) (by omega)
    rw [hu] at iA
    rw [List.get?_drop] at hz
    rw [show j + i + d.length = j + (i + d.length) by omega, hz,
      ← okAfterO_transfer huz]
    exact iA

theorem copyTok_shape (c : List Char) (β : List Char) :
    copyTok c ++ β = qChar :: (c ++ qChar :: β) := by
  simp [copyTok]

theorem subColF_preserves_copy (c d : List Char) (hcq : qChar ∉ c)
    (hd : d ≠ []) (hdq : qChar ∉ d)
    (hInner : hasElig d (some qChar) (c ++ [qChar]) = false) :
    ∀ (n : Nat) (s : List Char), s.length ≤ n → ∀ prev : Option Char,
      copyTok c <:+: s → copyTok c <:+: subColF d prev s := by
  have hdl : 1 ≤ d.length := by
    cases d with
    | nil => exact absurd rfl hd
    | cons a as => simp
  intro n
  induction n with
  | zero =>
    intro s hs prev hcopy
    have : s = [] := List.eq_nil_of_length_eq_zero (Nat.le_zero.mp hs)
    subst this
    rwa [subColF_nil]
  | succ n ih =>
    intro s hs prev hcopy
    rcases subColF_struct d hd s prev with hid | ⟨k, hk, hmin, hElig, hshape⟩
    · rwa [hid]
    · rw [hshape]
      obtain ⟨α, β, hαβ⟩ := hcopy
      have hαβ2 : s = α ++ qChar :: (c ++ qChar :: β) := by
        rw [← hαβ, List.append_assoc, copyTok_shape]
      obtain ⟨hs1, hs2, hs3, hs4, hs5, hs6⟩ := blockGet α c β α.length rfl
      rw [← hαβ2] at hs1 hs2 hs3 hs4 hs5 hs6
      obtain ⟨hkB, hkM, hkA⟩ := hElig
      have hnoq : ∀ r, r < d.length → s.get? (k + r) ≠ some qChar := by
        intro r hr hq
        refine mCI_no_qChar hdq hkM r hr ?_
        rw [List.get?_drop]
        exact hq
      have hc1 : ¬ (k ≤ α.length ∧ α.length < k + d.length) := by
        rintro ⟨h1, h2⟩
        exact hnoq (α.length - k) (by omega)
          (by rw [show k + (α.length - k) = α.length by omega]; exact hs2)
      have hc2 : ¬ (k ≤ α.length + 1 + c.length ∧
          α.length + 1 + c.length < k + d.length) := by
        rintro ⟨h1, h2⟩
        exact hnoq (α.length + 1 + c.length - k) (by omega)
          (by rw [show k + (α.length + 1 + c.length - k) = α.length + 1 + c.length
            by omega]; exact hs4)
      rcases Nat.lt_or_ge α.length k with hM1 | hM1
      · rcases Nat.lt_or_ge (α.length + 1 + c.length) k with hM2 | hM2
        · -- the copy lies inside the untouched prefix s.take k
          have htake : s.take k = (α ++ copyTok c) ++
              β.take (k - (α ++ copyTok c).length) := by
            have hlen : (α ++ copyTok c).length = α.length + c.length + 2 := by
              simp [copyTok]
              omega
            have hk2 : k = (α ++ copyTok c).length +
                (k - (α ++ copyTok c).length) := by
              rw [hlen]
              omega
            calc s.take k = ((α ++ copyTok c) ++ β).take k := by
                  rw [← hαβ, List.append_assoc]
              _ = (α ++ copyTok c) ++ β.take (k - (α ++ copyTok c).length) := by
                  rw [hk2, List.take_append]
                  have harith : (α ++ copyTok c).length +
                      (k - (α ++ copyTok c).length) - (α ++ copyTok c).length =
                      k - (α ++ copyTok c).length := by omega
                  rw [harith]
          refine List.IsInfix.trans ?_ (List.prefix_append (s.take k) _).isInfix
          rw [htake]
          exact ⟨α, β.take (k - (α ++ copyTok c).length), by rw [List.append_assoc]⟩
        · -- the match would fire strictly inside the copy: contradiction
          exfalso
          have hM3 : k + d.length ≤ α.length + 1 + c.length := by omega
          by_cases hedge : k = α.length + 1
          · -- preceded by the opening quote: the match could not fire
            rw [prevAt_pos _ _ _ (by omega), hedge, Nat.add_sub_cancel, hs2,
              okBefore_qChar] at hkB
            cases hkB
          · have hM4 : α.length + 2 ≤ k := by omega
            have hcontra : hasElig d (some qChar) (c ++ [qChar]) = true := by
              rw [hasElig_iff]
              have hccat : ∀ t, t ≤ c.length →
                  (c ++ [qChar]).get? t = s.get? (α.length + 1 + t) := by
                intro t ht
                rcases Nat.lt_or_ge t c.length with h | h
                · rw [List.get?_append h, hs3 t h]
                · have : t = c.length := by omega
                  subst this
                  rw [List.get?_append_right (by omega)]
                  simp only [Nat.sub_self]
                  rw [hs4]
                  rfl
              refine ⟨k - α.length - 1, by simp; omega, ?_, ?_, ?_⟩
              · rw [prevAt_pos _ _ _ (by omega)]
                rw [show k - α.length - 1 - 1 = k - α.length - 2 by omega]
                have := hccat (k - α.length - 2) (by omega)
                rw [List.get?_append (by omega)] at this
                rw [List.get?_append (by omega), this,
                  show α.length + 1 + (k - α.length - 2) = k - 1 by omega]
                rw [prevAt_pos _ _ _ (by omega)] at hkB
                exact hkB
              · refine mCI_of_get ?_
                intro r hr
                obtain ⟨a, b, ha, hb, hab⟩ := mCI_get hkM r hr
                rw [List.get?_drop] at hb
                refine ⟨a, b, ha, ?_, hab⟩
                rw [List.get?_drop]
                have heq := hccat (k - α.length - 1 + r) (by omega)
                rw [show α.length + 1 + (k - α.length - 1 + r) = k + r by omega] at heq
                rw [heq]
                exact hb
              · have heq := hccat (k - α.length - 1 + d.length) (by omega)
                rw [show α.length + 1 + (k - α.length - 1 + d.length) = k + d.length
                  by omega] at heq
                rw [heq]
                exact hkA
            rw [hInner] at hcontra
            exact Bool.false_ne_true hcontra
      · -- the whole match precedes the copy: recurse into the tail
        have hM2 : k + d.length ≤ α.length := by
          rcases Nat.lt_or_ge (k + d.length) (α.length + 1) with h | h
          · omega
          · exfalso
            exact hc1 ⟨by omega, by omega⟩
        have hdd : (s.drop k).drop d.length = s.drop (k + d.length) := by
          rw [List.drop_drop]
        have hcopy2 : copyTok c <:+: (s.drop k).drop d.length := by
          rw [hdd, ← hαβ, List.append_assoc,
            List.drop_append_of_le_length (by omega)]
          exact ⟨α.drop (k + d.length), β, by rw [List.append_assoc]⟩
        have hwlen : ((s.drop k).drop d.length).length ≤ n := by
          simp only [List.length_drop]
          omega
        have hw := ih ((s.drop k).drop d.length) hwlen
          (((s.drop k).take d.length).getLast?) hcopy2
        refine List.IsInfix.trans hw ?_
        refine ⟨s.take k ++ qChar :: (d ++ [qChar]), [], ?_⟩
        simp

/-- The per-column invariant after a quoting pass: the column appears in
delimited form, or no position of the string matches its pattern. -/
def quoteInv (c s : List Char) : Prop :=
  copyTok c <:+: s ∨ hasElig c none s = false

theorem containsTok_iff (s p : List Char) : containsTok s p = true ↔ p <:+: s := by
  simp [containsTok]

theorem quoteStep_estab (c s : List Char) (hc : c ≠ []) (hcq : qChar ∉ c) :
    quoteInv c (quoteStep s c) := by
  unfold quoteStep
  by_cases hct : containsTok s (copyTok c) = true
  · rw [if_pos hct]
    exact Or.inl ((containsTok_iff s (copyTok c)).mp hct)
  · rw [if_neg hct, subCol_eq_subColF, if_neg (by simpa using hc)]
    rcases subColF_unchanged_or_contains c hc s none with heq | hcontains
    · refine Or.inr ?_
      rw [heq]
      exact (subColF_eq_self_iff c hc hcq s none).mp heq
    · exact Or.inl hcontains

theorem quoteStep_pres (c d s : List Char) (hc : c ≠ []) (hcq : qChar ∉ c)
    (hd : d ≠ []) (hdq : qChar ∉ d) (hinv : quoteInv c s) :
    quoteInv c (quoteStep s d) := by
  unfold quoteStep
  by_cases hct : containsTok s (copyTok d) = true
  · rwa [if_pos hct]
  · rw [if_neg hct, subCol_eq_subColF, if_neg (by simpa using hd)]
    rcases hinv with hcopy | hnone
    · by_cases hInner : hasElig d (some qChar) (c ++ [qChar]) = true
      · refine Or.inr ?_
        by_contra h2
        rw [Bool.not_eq_false] at h2
        have h3 := inner_elig_transfer c d hcq hdq hInner
          (subColF d none s) none h2
        have h4 := subColF_exhaust d hd hdq s.length s (Nat.le_refl _) none
        rw [h4] at h3
        cases h3
      · rw [Bool.not_eq_true] at hInner
        exact Or.inl (subColF_preserves_copy c d hcq hd hdq hInner
          s.length s (Nat.le_refl _) none hcopy)
    · exact Or.inr (subColF_preserves_noElig c hc hcq d hd hdq
        s.length s (Nat.le_refl _) none hnone)

theorem quoteInv_foldl (c : List Char) (hc : c ≠ []) (hcq : qChar ∉ c) :
    ∀ (L : List (List Char)), (∀ x ∈ L, x ≠ [] ∧ qChar ∉ x) →
      ∀ s : List Char, quoteInv c s → quoteInv c (L.foldl quoteStep s) := by
  intro L
  induction L with
  | nil => intro _ s h; exact h
  | cons d L ih =>
    intro hL s h
    have hd := hL d (by simp)
    exact ih (fun x hx => hL x (by simp [hx])) (quoteStep s d)
      (quoteStep_pres c d s hc hcq hd.1 hd.2 h)

theorem quoteInv_all (L : List (List Char)) (hL : ∀ x ∈ L, x ≠ [] ∧ qChar ∉ x) :
    ∀ (s : List Char) (c : List Char), c ∈ L →
      quoteInv c (L.foldl quoteStep s) := by
  induction L with
  | nil => intro s c hc; cases hc
  | cons d L ih =>
    intro s c hc
    have hd := hL d (by simp)
    rcases List.mem_cons.mp hc with rfl | hc2
    · exact quoteInv_foldl c hd.1 hd.2 L (fun x hx => hL x (by simp [hx]))
        (quoteStep s c) (quoteStep_estab c s hd.1 hd.2)
    · exact ih (fun x hx => hL x (by simp [hx])) (quoteStep s d) c hc2

theorem foldl_quoteStep_fixed (L : List (List Char))
    (hL : ∀ x ∈ L, x ≠ [] ∧ qChar ∉ x) (s : List Char)
    (hinv : ∀ c ∈ L, quoteInv c s) : L.foldl quoteStep s = s := by
  induction L with
  | nil => rfl
  | cons d L ih =>
    have hd := hL d (by simp)
    have hstep : quoteStep s d = s := by
      unfold quoteStep
      by_cases hct : containsTok s (copyTok d) = true
      · rw [if_pos hct]
      · rw [if_neg hct, subCol_eq_subColF, if_neg (by simpa using hd.1)]
        rcases hinv d (by simp) with hcopy | hnone
        · exact absurd ((containsTok_iff s (copyTok d)).mpr hcopy) hct
        · exact (subColF_eq_self_iff d hd.1 hd.2 s none).mpr hnone
    rw [List.foldl_cons, hstep]
    exact ih (fun x hx => hL x (by simp [hx])) (fun c hc => hinv c (by simp [hc]))

theorem toLower_bt : Char.toLower btChar = btChar := by decide

theorem qChar_ne_btChar : qChar ≠ btChar := by decide

theorem dequoteTicksL_btFree (s : List Char) : btChar ∉ dequoteTicksL s := by
  intro hmem
  obtain ⟨c, _, hc⟩ := List.mem_map.mp hmem
  by_cases h : c = btChar
  · rw [if_pos (by simpa using h)] at hc
    exact qChar_ne_btChar hc
  · rw [if_neg (by simpa using h)] at hc
    exact h hc

theorem mCI_btFree {p t : List Char} (ht : btChar ∉ t) (h : mCI p t = true) :
    btChar ∉ p := by
  intro hmem
  obtain ⟨r, hr⟩ := List.mem_iff_get?.mp hmem
  have hrlen : r < p.length := by
    rcases Nat.lt_or_ge r p.length with h1 | h1
    · exact h1
    · rw [List.get?_eq_none.mpr h1] at hr
      cases hr
  obtain ⟨a, b, ha, hb, hab⟩ := mCI_get h r hrlen
  rw [ha] at hr
  obtain rfl : a = btChar := by injection hr
  have hbbt : b = btChar := toLower_eq_btChar.mp (by rw [← hab, toLower_bt])
  exact ht (hbbt ▸ List.get?_mem hb)

theorem subColF_btFree (col : List Char) (hcol : col ≠ []) :
    ∀ (n : Nat) (s : List Char), s.length ≤ n → ∀ prev : Option Char,
      btChar ∉ s → btChar ∉ subColF col prev s := by
  intro n
  induction n with
  | zero =>
    intro s hs prev hbt
    have : s = [] := List.eq_nil_of_length_eq_zero (Nat.le_zero.mp hs)
    subst this
    rw [subColF_nil]
    exact hbt
  | succ n ih =>
    intro s hs prev hbt
    cases s with
    | nil =>
      rw [subColF_nil]
      exact hbt
    | cons c cs =>
      rw [subColF_cons col hcol]
      by_cases he : eligAtB col prev (c :: cs) = true
      · rw [if_pos he]
        intro hmem
        have hcolbt : btChar ∉ col := by
          refine mCI_btFree hbt ?_
          simp only [eligAtB, Bool.and_eq_true] at he
          exact he.1.2
        have hdropbt : btChar ∉ List.drop col.length (c :: cs) :=
          fun hx => hbt (List.mem_of_mem_drop hx)
        have hdlen : (List.drop col.length (c :: cs)).length ≤ n := by
          have hlcol : 1 ≤ col.length := by
            cases col with
            | nil => exact absurd rfl hcol
            | cons a as => simp
          simp only [List.length_drop, List.length_cons]
          simp only [List.length_cons] at hs
          omega
        have hrest := ih (List.drop col.length (c :: cs)) hdlen
          ((List.take col.length (c :: cs)).getLast?) hdropbt
        rcases List.mem_cons.mp hmem with h1 | h1
        · exact qChar_ne_btChar h1.symm
        · rcases List.mem_append.mp h1 with h2 | h2
          · exact hcolbt h2
          · rcases List.mem_cons.mp h2 with h3 | h3
            · exact qChar_ne_btChar h3.symm
            · exact hrest h3
      · rw [if_neg he]
        intro hmem
        have htl : cs.length ≤ n := by
          simp only [List.length_cons] at hs
          omega
        have hcsbt : btChar ∉ cs := fun hx => hbt (List.mem_cons_of_mem c hx)
        rcases List.mem_cons.mp hmem with h1 | h1
        · exact hbt (h1 ▸ List.mem_cons_self c cs)
        · exact ih cs htl (some c) hcsbt h1

theorem quoteStep_btFree (s col : List Char) (hbt : btChar ∉ s) :
    btChar ∉ quoteStep s col := by
  unfold quoteStep
  by_cases hct : containsTok s (copyTok col) = true
  · rwa [if_pos hct]
  · rw [if_neg hct, subCol_eq_subColF]
    by_cases hemp : col.isEmpty = true
    · rwa [if_pos hemp]
    · rw [if_neg hemp]
      exact subColF_btFree col (by simpa using hemp) s.length s (Nat.le_refl _)
        none hbt

theorem foldl_quoteStep_btFree (L : List (List Char)) :
    ∀ s : List Char, btChar ∉ s → btChar ∉ L.foldl quoteStep s := by
  induction L with
  | nil => intro s h; exact h
  | cons d L ih =>
    intro s h
    exact ih (quoteStep s d) (quoteStep_btFree s d h)

theorem dequoteTicksL_fix (s : List Char) (hbt : btChar ∉ s) :
    dequoteTicksL s = s := by
  induction s with
  | nil => rfl
  | cons c cs ih =>
    have hc : (c == btChar) = false := by
      simp only [beq_eq_false_iff_ne, ne_eq]
      exact fun h => hbt (h ▸ List.mem_cons_self c cs)
    have hcs : btChar ∉ cs := fun h => hbt (List.mem_cons_of_mem c h)
    show (if c == btChar then qChar else c) :: dequoteTicksL cs = c :: cs
    rw [hc, ih hcs]
    rfl

theorem mem_insertDesc (a x : List Char) :
    ∀ L : List (List Char), a ∈ insertDesc x L ↔ a = x ∨ a ∈ L := by
  intro L
  induction L with
  | nil => simp [insertDesc]
  | cons y ys ih =>
    simp only [insertDesc]
    by_cases h : x.length < y.length
    · rw [if_pos h]
      simp only [List.mem_cons, ih]
      tauto
    · rw [if_neg h]
      simp only [List.mem_cons]

theorem mem_sortDescLen (a : List Char) :
    ∀ cols : List (List Char), a ∈ sortDescLen cols ↔ a ∈ cols := by
  intro cols
  induction cols with
  | nil => simp [sortDescLen]
  | cons x xs ih =>
    simp only [sortDescLen, List.foldr_cons]
    rw [show List.foldr insertDesc [] xs = sortDescLen xs from rfl]
    rw [mem_insertDesc, ih]
    exact (List.mem_cons).symm

theorem quote_smart_idem_core (q : List Char) (cols : List (List Char))
    (h : ∀ c ∈ cols, c ≠ [] ∧ qChar ∉ c) :
    quote_column_names_smart (quote_column_names_smart q cols) cols =
      quote_column_names_smart q cols := by
  have hL : ∀ c ∈ sortDescLen cols, c ≠ [] ∧ qChar ∉ c :=
    fun c hc => h c ((mem_sortDescLen c cols).mp hc)
  show (sortDescLen cols).foldl quoteStep
      (dequoteTicksL (quote_column_names_smart q cols)) = _
  have hbt : btChar ∉ quote_column_names_smart q cols :=
    foldl_quoteStep_btFree (sortDescLen cols) (dequoteTicksL q)
      (dequoteTicksL_btFree q)
  rw [dequoteTicksL_fix _ hbt]
  exact foldl_quoteStep_fixed (sortDescLen cols) hL _
    (fun c hc => quoteInv_all (sortDescLen cols) hL (dequoteTicksL q) c hc)

/-- C7 (amended): the identifier quoter is idempotent for every query and
every list of column names in which each name is nonempty and contains no
double-quote character: `quote (quote q cols) cols = quote q cols`.  (The
unrestricted statement fails: see the counterexample with a column name
containing double quotes.) -/
theorem quote_smart_idempotent (q : String) (cols : List String)
    (h : ∀ c ∈ cols, c.data ≠ [] ∧ qChar ∉ c.data) :
    quoteSmartS (quoteSmartS q cols) cols = quoteSmartS q cols := by
  have hcols : ∀ c ∈ cols.map String.data, c ≠ [] ∧ qChar ∉ c := by
    intro c hc
    obtain ⟨cs, hcs, rfl⟩ := List.mem_map.mp hc
    exact h cs hcs
  show (⟨quote_column_names_smart
      (quote_column_names_smart q.data (cols.map String.data))
      (cols.map String.data)⟩ : String) = _
  rw [quote_smart_idem_core q.data (cols.map String.data) hcols]
  rfl

/-- C7 witness: idempotence at a concrete query over the spec's columns. -/
theorem quote_smart_idempotent_witness :
    quoteSmartS (quoteSmartS ("SELECT Age, AGE GROUP FROM t")
        ["Age", "Age Group"]) ["Age", "Age Group"] =
      quoteSmartS ("SELECT Age, AGE GROUP FROM t") ["Age", "Age Group"] :=
  quote_smart_idempotent ("SELECT Age, AGE GROUP FROM t") ["Age", "Age Group"]
    (by decide)
